import Mathlib

/-!
# Verification of the in-memory quote store

Shallow embedding of `internal/storage/memorystorage/memorystorage.go`
from the quotes-service repository, together with proofs about the
claims of its specification.

The Go `Storage` struct holds a `map[int64]models.Quote`, a parallel
slice `[]models.Quote` in insertion order, and an `int64` next-id
counter.  The map is embedded as an association list with Go map
semantics (insert overwrites, delete removes, lookup finds), int64 as
`Int` (the counter only ever moves by `+1` from 1 and is bounded by the
number of stored quotes, so overflow is unreachable), and `context`
cancellation as an `Option CtxErr`: `none` is a live context, `some e`
a context whose `Done` channel is closed and whose `Err()` is `e`.
Go's `(value, error)` returns become `Except Err value`, and each
method returns its result paired with the post-state.  Go distinguishes
a nil slice from an empty one; slice results are embedded as
`Option (List Quote)` with `none` for a nil slice.
-/

/-- `models.Quote` from `internal/models`: id, text, author. -/
structure Quote where
  id : Int
  text : String
  author : String
deriving DecidableEq, Repr

instance : Inhabited Quote := ⟨⟨0, "", ""⟩⟩

/-- The two errors a Go `context.Context.Err()` can return. -/
inductive CtxErr where
  | canceled
  | deadlineExceeded
deriving DecidableEq, Repr

/-- A `context.Context` as the store observes it: `none` when not done,
`some e` when already cancelled/expired with error `e`. -/
abbrev Ctx := Option CtxErr

/-- Errors a store operation can return: `storage.ErrQuoteNotFound`,
or the propagated context error. -/
inductive Err where
  | quoteNotFound
  | ctx (e : CtxErr)
deriving DecidableEq, Repr

/-- Go map lookup `m[k]` on the association-list embedding. -/
def mapLookup (m : List (Int × Quote)) (k : Int) : Option Quote :=
  match m with
  | [] => none
  | (k', v) :: rest => if k' = k then some v else mapLookup rest k

/-- Go map assignment `m[k] = v`: overwrite the binding if present,
otherwise add it. -/
def mapInsert (m : List (Int × Quote)) (k : Int) (v : Quote) :
    List (Int × Quote) :=
  match m with
  | [] => [(k, v)]
  | (k', v') :: rest =>
      if k' = k then (k, v) :: rest else (k', v') :: mapInsert rest k v

/-- Go `delete(m, k)`: remove the binding for `k`. -/
def mapDelete (m : List (Int × Quote)) (k : Int) : List (Int × Quote) :=
  m.filter (fun p => p.1 != k)

/-- `memorystorage.Storage`: the id-to-quote map, the insertion-ordered
slice, and the next-id counter.  (The `sync.RWMutex` serializes the
operations; the embedding models the store between operations, i.e. the
serialized history the lock produces.) -/
structure Storage where
  quotes : List (Int × Quote)
  quotesList : List Quote
  nextID : Int
deriving DecidableEq, Repr

/-- `memorystorage.New()`: empty map, empty slice, counter at 1.
(The Go constructor's error result is always nil.) -/
def New : Storage :=
  { quotes := [], quotesList := [], nextID := 1 }

/-- `Storage.AddQuote(ctx, text, author)`: after the ctx check, assign
`id := nextID`, increment the counter, store the quote in the map and
append it to the slice. -/
def AddQuote (s : Storage) (ctx : Ctx) (text author : String) :
    Except Err Int × Storage :=
  match ctx with
  | some e => (Except.error (Err.ctx e), s)
  | none =>
    let id := s.nextID
    let quote : Quote := { id := id, text := text, author := author }
    (Except.ok id,
     { quotes := mapInsert s.quotes id quote
       quotesList := s.quotesList ++ [quote]
       nextID := s.nextID + 1 })

/-- `Storage.GetAllQuotes(ctx)`: after the ctx check, return a copy of
the slice (`make` + `copy`; the result of `make` is never a nil slice,
hence `some`). -/
def GetAllQuotes (s : Storage) (ctx : Ctx) :
    Except Err (Option (List Quote)) × Storage :=
  match ctx with
  | some e => (Except.error (Err.ctx e), s)
  | none => (Except.ok (some s.quotesList), s)

/-- `Storage.GetRandomQuote(ctx)`: after the ctx check, fail with
`ErrQuoteNotFound` on an empty slice, otherwise return the element at
`randomIndex`.  The source draws `randomIndex := rand.Intn(len)`; the
embedding takes the drawn index as an explicit argument (its contract:
a value in `[0, len)`). -/
def GetRandomQuote (s : Storage) (ctx : Ctx) (randomIndex : Nat) :
    Except Err Quote × Storage :=
  match ctx with
  | some e => (Except.error (Err.ctx e), s)
  | none =>
    if s.quotesList.length = 0 then
      (Except.error Err.quoteNotFound, s)
    else
      (Except.ok (s.quotesList.getD randomIndex default), s)

/-- Go `append(acc, q)` on a result slice that starts out nil. -/
def goAppend (acc : Option (List Quote)) (q : Quote) : Option (List Quote) :=
  some (acc.getD [] ++ [q])

/-- The body of the `for _, q := range s.quotesList` loop of
`GetQuotesByAuthor`: append `q` to the result exactly when its author
equals the filter. -/
def byAuthorStep (authorFilter : String) (acc : Option (List Quote))
    (q : Quote) : Option (List Quote) :=
  if q.author = authorFilter then goAppend acc q else acc

/-- `Storage.GetQuotesByAuthor(ctx, authorFilter)`: after the ctx
check, range over the slice appending exact author matches to a nil
result slice; a still-nil result is replaced by an empty slice. -/
def GetQuotesByAuthor (s : Storage) (ctx : Ctx) (authorFilter : String) :
    Except Err (Option (List Quote)) × Storage :=
  match ctx with
  | some e => (Except.error (Err.ctx e), s)
  | none =>
    let result := s.quotesList.foldl (byAuthorStep authorFilter) none
    match result with
    | none => (Except.ok (some []), s)
    | some l => (Except.ok (some l), s)

/-- `Storage.DeleteQuote(ctx, id)`: after the ctx check, fail with
`ErrQuoteNotFound` if the map has no binding for `id`; otherwise delete
it from the map and rebuild the slice keeping every quote whose id
differs. -/
def DeleteQuote (s : Storage) (ctx : Ctx) (id : Int) :
    Except Err Unit × Storage :=
  match ctx with
  | some e => (Except.error (Err.ctx e), s)
  | none =>
    match mapLookup s.quotes id with
    | none => (Except.error Err.quoteNotFound, s)
    | some _ =>
      (Except.ok (),
       { quotes := mapDelete s.quotes id
         quotesList := s.quotesList.filter (fun q => q.id != id)
         nextID := s.nextID })

/-- `Storage.Close()`: unconditionally replace both structures with
fresh empty ones and reset the counter to 1.  Takes no context. -/
def Close (_s : Storage) : Except Err Unit × Storage :=
  (Except.ok (),
   { quotes := [], quotesList := [], nextID := 1 })

instance {ε α : Type} [DecidableEq ε] [DecidableEq α] :
    DecidableEq (Except ε α) := fun x y =>
  match x, y with
  | Except.ok a, Except.ok b =>
      if h : a = b then isTrue (by rw [h]) else isFalse (by simp [h])
  | Except.error a, Except.error b =>
      if h : a = b then isTrue (by rw [h]) else isFalse (by simp [h])
  | Except.ok _, Except.error _ => isFalse (by simp)
  | Except.error _, Except.ok _ => isFalse (by simp)

/-- The store invariant of the spec: the slice's ids are duplicate
free, every assigned id is below the counter, the map's keys are
duplicate free, and map and slice hold exactly the same quotes with
the map key equal to the stored quote's id. -/
def StoreInv (s : Storage) : Prop :=
  (s.quotesList.map Quote.id).Nodup ∧
  (∀ q ∈ s.quotesList, q.id < s.nextID) ∧
  (s.quotes.map Prod.fst).Nodup ∧
  (∀ q ∈ s.quotesList, (q.id, q) ∈ s.quotes) ∧
  (∀ p ∈ s.quotes, p.2 ∈ s.quotesList ∧ p.2.id = p.1)

instance (s : Storage) : Decidable (StoreInv s) := by
  unfold StoreInv; infer_instance

/-- One store call, for reasoning about operation sequences; each
carries the arguments the corresponding method takes (with a live
context). -/
inductive Op where
  | add (text author : String)
  | getAll
  | random (randomIndex : Nat)
  | byAuthor (authorFilter : String)
  | delete (id : Int)
  | close
deriving DecidableEq, Repr

/-- The post-state of one call. -/
def stepOp (s : Storage) : Op → Storage
  | Op.add t a => (AddQuote s none t a).2
  | Op.getAll => (GetAllQuotes s none).2
  | Op.random r => (GetRandomQuote s none r).2
  | Op.byAuthor f => (GetQuotesByAuthor s none f).2
  | Op.delete k => (DeleteQuote s none k).2
  | Op.close => (Close s).2

/-- Run a sequence of calls. -/
def runOps (s : Storage) (ops : List Op) : Storage :=
  ops.foldl stepOp s

/-- The ids handed out by the `add` calls of a sequence, in call
order. -/
def assignedIds (s : Storage) : List Op → List Int
  | [] => []
  | op :: rest =>
    (match op with
     | Op.add _ _ => [s.nextID]
     | _ => []) ++ assignedIds (stepOp s op) rest

/-- Run a sequence of `AddQuote` calls, post-state only. -/
def addMany (s : Storage) (ps : List (String × String)) : Storage :=
  ps.foldl (fun st p => (AddQuote st none p.1 p.2).2) s

/-- Run a sequence of `AddQuote` calls collecting the returned ids. -/
def addAll (s : Storage) : List (String × String) → List Int × Storage
  | [] => ([], s)
  | p :: rest =>
    let r := AddQuote s none p.1 p.2
    match r.1 with
    | Except.ok i =>
      let rec' := addAll r.2 rest
      (i :: rec'.1, rec'.2)
    | Except.error _ => addAll r.2 rest

/-! ## Helper lemmas about the map embedding -/

theorem mapLookup_eq_none (m : List (Int × Quote)) (k : Int) :
    mapLookup m k = none ↔ k ∉ m.map Prod.fst := by
  induction m with
  | nil => simp [mapLookup]
  | cons p rest ih =>
    by_cases h : p.1 = k
    · simp [mapLookup, h]
    · simp [mapLookup, h, ih, Ne.symm h]

theorem mapInsert_of_not_mem (m : List (Int × Quote)) (k : Int) (v : Quote)
    (h : k ∉ m.map Prod.fst) : mapInsert m k v = m ++ [(k, v)] := by
  induction m with
  | nil => rfl
  | cons p rest ih =>
    simp only [List.map_cons, List.mem_cons, not_or] at h
    have hne : ¬ p.1 = k := fun hh => h.1 hh.symm
    simp [mapInsert, hne, ih h.2]

theorem mem_mapDelete (m : List (Int × Quote)) (k : Int) (p : Int × Quote) :
    p ∈ mapDelete m k ↔ p ∈ m ∧ p.1 ≠ k := by
  simp [mapDelete, List.mem_filter]

theorem mapLookup_cons (p : Int × Quote) (rest : List (Int × Quote)) (j : Int) :
    mapLookup (p :: rest) j = if p.1 = j then some p.2 else mapLookup rest j := by
  cases p
  rfl

theorem mapDelete_cons (p : Int × Quote) (rest : List (Int × Quote)) (k : Int) :
    mapDelete (p :: rest) k =
      if p.1 = k then mapDelete rest k else p :: mapDelete rest k := by
  by_cases h : p.1 = k <;> simp [mapDelete, List.filter_cons, h]

theorem mapDelete_lookup_self (m : List (Int × Quote)) (k : Int) :
    mapLookup (mapDelete m k) k = none := by
  rw [mapLookup_eq_none]
  intro hmem
  obtain ⟨p, hp, hp1⟩ := List.mem_map.mp hmem
  exact ((mem_mapDelete _ _ _).mp hp).2 hp1

theorem mapDelete_lookup_other (m : List (Int × Quote)) (k j : Int)
    (hjk : j ≠ k) : mapLookup (mapDelete m k) j = mapLookup m j := by
  induction m with
  | nil => simp [mapDelete]
  | cons p rest ih =>
    rw [mapDelete_cons]
    by_cases hpk : p.1 = k
    · have hpj : ¬ p.1 = j := by rw [hpk]; exact fun hh => hjk hh.symm
      rw [if_pos hpk, ih, mapLookup_cons, if_neg hpj]
    · rw [if_neg hpk, mapLookup_cons, mapLookup_cons]
      by_cases hpj : p.1 = j
      · rw [if_pos hpj, if_pos hpj]
      · rw [if_neg hpj, if_neg hpj, ih]

theorem mapDelete_keys_sublist (m : List (Int × Quote)) (k : Int) :
    List.Sublist ((mapDelete m k).map Prod.fst) (m.map Prod.fst) :=
  (List.filter_sublist m).map Prod.fst

/-! ## Unfolding lemmas for the operations on a live context -/

theorem addQuote_none_fst (s : Storage) (t a : String) :
    (AddQuote s none t a).1 = Except.ok s.nextID := rfl

theorem addQuote_none_snd (s : Storage) (t a : String) :
    (AddQuote s none t a).2 =
      { quotes := mapInsert s.quotes s.nextID ⟨s.nextID, t, a⟩,
        quotesList := s.quotesList ++ [⟨s.nextID, t, a⟩],
        nextID := s.nextID + 1 } := rfl

theorem getAllQuotes_snd (s : Storage) (ctx : Ctx) :
    (GetAllQuotes s ctx).2 = s := by
  cases ctx <;> rfl

theorem getRandomQuote_snd (s : Storage) (ctx : Ctx) (r : Nat) :
    (GetRandomQuote s ctx r).2 = s := by
  cases ctx with
  | none =>
    unfold GetRandomQuote
    by_cases h : s.quotesList.length = 0 <;> simp [h]
  | some e => rfl

theorem getQuotesByAuthor_snd (s : Storage) (ctx : Ctx) (f : String) :
    (GetQuotesByAuthor s ctx f).2 = s := by
  cases ctx with
  | none =>
    unfold GetQuotesByAuthor
    cases (s.quotesList.foldl (byAuthorStep f) none) <;> simp
  | some e => rfl

theorem deleteQuote_none_of_lookup_none (s : Storage) (k : Int)
    (h : mapLookup s.quotes k = none) :
    DeleteQuote s none k = (Except.error Err.quoteNotFound, s) := by
  unfold DeleteQuote
  simp [h]

theorem deleteQuote_none_of_lookup_some (s : Storage) (k : Int) (v : Quote)
    (h : mapLookup s.quotes k = some v) :
    DeleteQuote s none k =
      (Except.ok (),
       { quotes := mapDelete s.quotes k
         quotesList := s.quotesList.filter (fun q => q.id != k)
         nextID := s.nextID }) := by
  unfold DeleteQuote
  simp [h]

/-! ## Invariant preservation -/

theorem storeInv_new : StoreInv New := by decide

theorem nextID_not_key (s : Storage) (h : StoreInv s) :
    s.nextID ∉ s.quotes.map Prod.fst := by
  obtain ⟨-, h2, -, -, h5⟩ := h
  intro hmem
  obtain ⟨p, hp, hp1⟩ := List.mem_map.mp hmem
  obtain ⟨hmemL, hid⟩ := h5 p hp
  have := h2 p.2 hmemL
  rw [hid, hp1] at this
  exact absurd this (lt_irrefl _)

theorem nextID_not_listed (s : Storage) (h : StoreInv s) :
    s.nextID ∉ s.quotesList.map Quote.id := by
  obtain ⟨-, h2, -, -, -⟩ := h
  intro hmem
  obtain ⟨q, hq, hqid⟩ := List.mem_map.mp hmem
  have := h2 q hq
  rw [hqid] at this
  exact absurd this (lt_irrefl _)

theorem storeInv_add (s : Storage) (t a : String) (h : StoreInv s) :
    StoreInv (AddQuote s none t a).2 := by
  have hkey := nextID_not_key s h
  have hlist := nextID_not_listed s h
  obtain ⟨h1, h2, h3, h4, h5⟩ := h
  rw [addQuote_none_snd, mapInsert_of_not_mem _ _ _ hkey]
  unfold StoreInv
  dsimp only
  refine ⟨?_, ?_, ?_, ?_, ?_⟩
  · simp only [List.map_append, List.map_cons, List.map_nil]
    rw [List.nodup_append]
    exact ⟨h1, List.nodup_singleton _, by simpa using hlist⟩
  · intro q hq
    rcases List.mem_append.mp hq with hq | hq
    · exact lt_trans (h2 q hq) (by omega)
    · simp only [List.mem_singleton] at hq
      subst hq
      dsimp only
      omega
  · simp only [List.map_append, List.map_cons, List.map_nil]
    rw [List.nodup_append]
    exact ⟨h3, List.nodup_singleton _, by simpa using hkey⟩
  · intro q hq
    rcases List.mem_append.mp hq with hq | hq
    · exact List.mem_append_left _ (h4 q hq)
    · simp only [List.mem_singleton] at hq
      rw [hq]
      exact List.mem_append_right _ (by simp)
  · intro p hp
    rcases List.mem_append.mp hp with hp | hp
    · obtain ⟨hm, hid⟩ := h5 p hp
      exact ⟨List.mem_append_left _ hm, hid⟩
    · simp only [List.mem_singleton] at hp
      rw [hp]
      exact ⟨List.mem_append_right _ (by simp), rfl⟩

theorem storeInv_delete (s : Storage) (k : Int) (h : StoreInv s) :
    StoreInv (DeleteQuote s none k).2 := by
  obtain ⟨h1, h2, h3, h4, h5⟩ := h
  cases hm : mapLookup s.quotes k with
  | none =>
    rw [deleteQuote_none_of_lookup_none s k hm]
    exact ⟨h1, h2, h3, h4, h5⟩
  | some v =>
    rw [deleteQuote_none_of_lookup_some s k v hm]
    refine ⟨?_, ?_, ?_, ?_, ?_⟩
    · exact h1.sublist ((List.filter_sublist s.quotesList).map Quote.id)
    · intro q hq
      exact h2 q (List.mem_of_mem_filter hq)
    · exact h3.sublist (mapDelete_keys_sublist s.quotes k)
    · intro q hq
      obtain ⟨hmem, hne⟩ := List.mem_filter.mp hq
      rw [bne_iff_ne] at hne
      exact (mem_mapDelete _ _ _).mpr ⟨h4 q hmem, hne⟩
    · intro p hp
      obtain ⟨hmem, hne⟩ := (mem_mapDelete _ _ _).mp hp
      obtain ⟨hmemL, hid⟩ := h5 p hmem
      refine ⟨List.mem_filter.mpr ⟨hmemL, ?_⟩, hid⟩
      rw [bne_iff_ne, hid]
      exact hne

theorem storeInv_close (s : Storage) : StoreInv (Close s).2 := by
  exact ⟨List.nodup_nil, by simp [Close], List.nodup_nil, by simp [Close],
    by simp [Close]⟩

/-! ## The map is the authoritative existence check -/

theorem lookup_none_iff_not_listed (s : Storage) (k : Int) (h : StoreInv s) :
    mapLookup s.quotes k = none ↔ ∀ q ∈ s.quotesList, q.id ≠ k := by
  obtain ⟨-, -, -, h4, h5⟩ := h
  rw [mapLookup_eq_none]
  constructor
  · intro hnk q hq hid
    exact hnk (List.mem_map.mpr ⟨(q.id, q), h4 q hq, hid⟩)
  · intro hall hk
    obtain ⟨p, hp, hp1⟩ := List.mem_map.mp hk
    obtain ⟨hmemL, hid⟩ := h5 p hp
    exact hall p.2 hmemL (hid.trans hp1)

theorem lookup_some_of_listed (s : Storage) (q : Quote) (h : StoreInv s)
    (hq : q ∈ s.quotesList) : ∃ v, mapLookup s.quotes q.id = some v := by
  cases hm : mapLookup s.quotes q.id with
  | none => exact absurd rfl ((lookup_none_iff_not_listed s q.id h).mp hm q hq)
  | some v => exact ⟨v, rfl⟩

/-! ## Sequences of Add calls -/

theorem addMany_cons (s : Storage) (p : String × String)
    (rest : List (String × String)) :
    addMany s (p :: rest) = addMany (AddQuote s none p.1 p.2).2 rest := rfl

theorem not_listed_of_lt_nextID (s : Storage) (q0 : Quote) (h : StoreInv s)
    (hlt : q0.id ≥ s.nextID) : q0 ∉ s.quotesList := by
  intro hmem
  have := h.2.1 q0 hmem
  omega

theorem addMany_count (ps : List (String × String)) (s : Storage) (q0 : Quote)
    (hk : q0.id < s.nextID) :
    (addMany s ps).quotesList.count q0 = s.quotesList.count q0 ∧
    q0.id < (addMany s ps).nextID := by
  induction ps generalizing s with
  | nil => exact ⟨rfl, hk⟩
  | cons p rest ih =>
    rw [addMany_cons]
    have hk' : q0.id < (AddQuote s none p.1 p.2).2.nextID := by
      rw [addQuote_none_snd]
      dsimp only
      omega
    obtain ⟨hc, hlt⟩ := ih (AddQuote s none p.1 p.2).2 hk'
    refine ⟨?_, hlt⟩
    rw [hc, addQuote_none_snd]
    dsimp only
    rw [List.count_append]
    have hne : q0 ≠ ⟨s.nextID, p.1, p.2⟩ := by
      intro hh
      rw [hh] at hk
      dsimp only at hk
      omega
    simp [List.count_cons, hne]

theorem addMany_inv (ps : List (String × String)) (s : Storage)
    (h : StoreInv s) : StoreInv (addMany s ps) := by
  induction ps generalizing s with
  | nil => exact h
  | cons p rest ih => exact ih _ (storeInv_add s p.1 p.2 h)

theorem addAll_cons (s : Storage) (p : String × String)
    (rest : List (String × String)) :
    addAll s (p :: rest) =
      (s.nextID :: (addAll (AddQuote s none p.1 p.2).2 rest).1,
       (addAll (AddQuote s none p.1 p.2).2 rest).2) := rfl

theorem addAll_ids (ps : List (String × String)) (s : Storage) :
    (addAll s ps).1
      = (List.range ps.length).map (fun n : Nat => s.nextID + (n : Int)) := by
  induction ps generalizing s with
  | nil => rfl
  | cons p rest ih =>
    rw [addAll_cons]
    dsimp only
    rw [ih (AddQuote s none p.1 p.2).2, addQuote_none_snd]
    dsimp only
    rw [List.length_cons, List.range_succ_eq_map, List.map_cons, List.map_map]
    congr 1
    · omega
    · apply List.map_congr_left
      intro n _
      simp only [Function.comp_apply, Nat.succ_eq_add_one]
      push_cast
      ring

/-! ## Sequences of arbitrary calls -/

theorem deleteQuote_none_nextID (s : Storage) (k : Int) :
    (DeleteQuote s none k).2.nextID = s.nextID := by
  cases hm : mapLookup s.quotes k with
  | none => rw [deleteQuote_none_of_lookup_none s k hm]
  | some v => rw [deleteQuote_none_of_lookup_some s k v hm]

theorem stepOp_nextID (s : Storage) (op : Op) (h : op ≠ Op.close) :
    s.nextID ≤ (stepOp s op).nextID := by
  cases op with
  | add t a =>
    rw [show stepOp s (Op.add t a) = (AddQuote s none t a).2 from rfl,
      addQuote_none_snd]
    dsimp only
    omega
  | getAll => rw [show stepOp s Op.getAll = (GetAllQuotes s none).2 from rfl,
      getAllQuotes_snd]
  | random r => rw [show stepOp s (Op.random r) = (GetRandomQuote s none r).2
      from rfl, getRandomQuote_snd]
  | byAuthor f => rw [show stepOp s (Op.byAuthor f)
      = (GetQuotesByAuthor s none f).2 from rfl, getQuotesByAuthor_snd]
  | delete k => rw [show stepOp s (Op.delete k) = (DeleteQuote s none k).2
      from rfl, deleteQuote_none_nextID]
  | close => exact absurd rfl h

theorem runOps_cons (s : Storage) (op : Op) (rest : List Op) :
    runOps s (op :: rest) = runOps (stepOp s op) rest := rfl

theorem runOps_nextID (ops : List Op) (s : Storage) (h : Op.close ∉ ops) :
    s.nextID ≤ (runOps s ops).nextID := by
  induction ops generalizing s with
  | nil => exact le_refl _
  | cons op rest ih =>
    simp only [List.mem_cons, not_or] at h
    rw [runOps_cons]
    exact le_trans (stepOp_nextID s op (fun hh => h.1 hh.symm)) (ih _ h.2)

theorem assignedIds_cons (s : Storage) (op : Op) (rest : List Op) :
    assignedIds s (op :: rest) =
      (match op with
       | Op.add _ _ => [s.nextID]
       | _ => []) ++ assignedIds (stepOp s op) rest := rfl

theorem assignedIds_bounds (ops : List Op) (s : Storage) (h : Op.close ∉ ops) :
    ∀ i ∈ assignedIds s ops, s.nextID ≤ i ∧ i < (runOps s ops).nextID := by
  induction ops generalizing s with
  | nil => intro i hi; exact absurd hi (List.not_mem_nil i)
  | cons op rest ih =>
    simp only [List.mem_cons, not_or] at h
    intro i hi
    rw [assignedIds_cons] at hi
    rw [runOps_cons]
    have hstep := stepOp_nextID s op (fun hh => h.1 hh.symm)
    cases op with
    | add t a =>
      simp only [List.cons_append, List.nil_append, List.mem_cons] at hi
      rcases hi with hi | hi
      · subst hi
        refine ⟨le_refl _, ?_⟩
        have hnext : (stepOp s (Op.add t a)).nextID = s.nextID + 1 := by
          rw [show stepOp s (Op.add t a) = (AddQuote s none t a).2 from rfl,
            addQuote_none_snd]
        have := runOps_nextID rest (stepOp s (Op.add t a)) h.2
        omega
      · obtain ⟨h1, h2⟩ := ih (stepOp s (Op.add t a)) h.2 i hi
        exact ⟨le_trans hstep h1, h2⟩
    | getAll =>
      obtain ⟨h1, h2⟩ := ih _ h.2 i hi
      exact ⟨le_trans hstep h1, h2⟩
    | random r =>
      obtain ⟨h1, h2⟩ := ih _ h.2 i hi
      exact ⟨le_trans hstep h1, h2⟩
    | byAuthor f =>
      obtain ⟨h1, h2⟩ := ih _ h.2 i hi
      exact ⟨le_trans hstep h1, h2⟩
    | delete k =>
      obtain ⟨h1, h2⟩ := ih _ h.2 i hi
      exact ⟨le_trans hstep h1, h2⟩
    | close => exact absurd rfl h.1

theorem assignedIds_pairwise (ops : List Op) (s : Storage)
    (h : Op.close ∉ ops) : (assignedIds s ops).Pairwise (· < ·) := by
  induction ops generalizing s with
  | nil => exact List.Pairwise.nil
  | cons op rest ih =>
    simp only [List.mem_cons, not_or] at h
    rw [assignedIds_cons]
    cases op with
    | add t a =>
      simp only [List.cons_append, List.nil_append]
      refine List.Pairwise.cons ?_ (ih _ h.2)
      intro i hi
      have hnext : (stepOp s (Op.add t a)).nextID = s.nextID + 1 := by
        rw [show stepOp s (Op.add t a) = (AddQuote s none t a).2 from rfl,
          addQuote_none_snd]
      have := (assignedIds_bounds rest (stepOp s (Op.add t a)) h.2 i hi).1
      omega
    | getAll => exact ih _ h.2
    | random r => exact ih _ h.2
    | byAuthor f => exact ih _ h.2
    | delete k => exact ih _ h.2
    | close => exact absurd rfl h.1

/-! ## GetQuotesByAuthor: the fold builds exactly the author filter -/

theorem byAuthorStep_match (f : String) (acc : Option (List Quote)) (q : Quote)
    (hq : q.author = f) : byAuthorStep f acc q = some (acc.getD [] ++ [q]) := by
  simp [byAuthorStep, goAppend, hq]

theorem byAuthorStep_skip (f : String) (acc : Option (List Quote)) (q : Quote)
    (hq : ¬ q.author = f) : byAuthorStep f acc q = acc := by
  simp [byAuthorStep, hq]

theorem byAuthor_foldl_some (l : List Quote) (f : String) (acc : List Quote) :
    l.foldl (byAuthorStep f) (some acc)
      = some (acc ++ l.filter (fun q => q.author == f)) := by
  induction l generalizing acc with
  | nil => simp
  | cons q rest ih =>
    rw [List.foldl_cons]
    by_cases hq : q.author = f
    · rw [byAuthorStep_match f (some acc) q hq]
      simp only [Option.getD_some]
      rw [ih]
      simp [List.filter_cons, hq]
    · rw [byAuthorStep_skip f (some acc) q hq, ih]
      simp [List.filter_cons, hq]

theorem byAuthor_foldl_none (l : List Quote) (f : String) :
    l.foldl (byAuthorStep f) none = none
        ∧ l.filter (fun q => q.author == f) = [] ∨
    l.foldl (byAuthorStep f) none
        = some (l.filter (fun q => q.author == f)) := by
  induction l with
  | nil => exact Or.inl ⟨rfl, rfl⟩
  | cons q rest ih =>
    rw [List.foldl_cons]
    by_cases hq : q.author = f
    · right
      rw [byAuthorStep_match f none q hq]
      simp only [Option.getD_none, List.nil_append]
      rw [byAuthor_foldl_some]
      simp [List.filter_cons, hq]
    · rw [byAuthorStep_skip f none q hq]
      rcases ih with ⟨h1, h2⟩ | h1
      · left
        refine ⟨h1, ?_⟩
        simp [List.filter_cons, hq, h2]
      · right
        rw [h1]
        simp [List.filter_cons, hq]

theorem getQuotesByAuthor_none_fst (s : Storage) (f : String) :
    (GetQuotesByAuthor s none f).1 =
      Except.ok (some (s.quotesList.filter (fun q => q.author == f))) := by
  unfold GetQuotesByAuthor
  rcases byAuthor_foldl_none s.quotesList f with ⟨h1, h2⟩ | h1
  · simp [h1, h2]
  · simp [h1]

/-! ## GetRandomQuote result -/

theorem getRandomQuote_none_empty (s : Storage) (r : Nat)
    (h : s.quotesList.length = 0) :
    (GetRandomQuote s none r).1 = Except.error Err.quoteNotFound := by
  unfold GetRandomQuote
  simp [h]

theorem getRandomQuote_none_nonempty (s : Storage) (r : Nat)
    (h : ¬ s.quotesList.length = 0) :
    (GetRandomQuote s none r).1 =
      Except.ok (s.quotesList.getD r default) := by
  unfold GetRandomQuote
  simp [h]

/-! ## The claims -/

/-- C1: every operation (AddQuote, GetAllQuotes, GetRandomQuote,
GetQuotesByAuthor, DeleteQuote, Close) preserves the store invariant:
map and slice hold exactly the same quotes, with no duplicate id in the
slice. -/
theorem store_ops_preserve_inv (s : Storage) (ctx : Ctx) (t a f : String)
    (k : Int) (r : Nat) (h : StoreInv s) :
    StoreInv (AddQuote s ctx t a).2 ∧ StoreInv (GetAllQuotes s ctx).2 ∧
    StoreInv (GetRandomQuote s ctx r).2 ∧
    StoreInv (GetQuotesByAuthor s ctx f).2 ∧
    StoreInv (DeleteQuote s ctx k).2 ∧ StoreInv (Close s).2 := by
  cases ctx with
  | some e => exact ⟨h, h, h, h, h, storeInv_close s⟩
  | none =>
    refine ⟨storeInv_add s t a h, ?_, ?_, ?_, storeInv_delete s k h,
      storeInv_close s⟩
    · rw [getAllQuotes_snd]
      exact h
    · rw [getRandomQuote_snd]
      exact h
    · rw [getQuotesByAuthor_snd]
      exact h

theorem store_ops_preserve_inv_witness :
    StoreInv (AddQuote New none "Be water, my friend." "Bruce Lee").2 :=
  (store_ops_preserve_inv New none "Be water, my friend." "Bruce Lee" "x" 1 0
    (by decide)).1

/-- C2: after a non-cancelled `AddQuote(t, a)` returns id `k` on an
invariant-respecting store, `GetAllQuotes` lists the quote
`⟨k, t, a⟩` exactly once; it still does after any further sequence of
Adds; at that point `DeleteQuote(k)` succeeds, after which the quote is
listed zero times. -/
theorem add_listed_once_until_delete (s : Storage) (t a : String)
    (hInv : StoreInv s) (k : Int) (s' : Storage)
    (heq : AddQuote s none t a = (Except.ok k, s')) :
    ∀ ps : List (String × String),
      (∃ l, (GetAllQuotes (addMany s' ps) none).1 = Except.ok (some l) ∧
        l.count ⟨k, t, a⟩ = 1) ∧
      (DeleteQuote (addMany s' ps) none k).1 = Except.ok () ∧
      (∃ l, (GetAllQuotes (DeleteQuote (addMany s' ps) none k).2 none).1
          = Except.ok (some l) ∧ l.count ⟨k, t, a⟩ = 0) := by
  have hfst : (AddQuote s none t a).1 = Except.ok k := by rw [heq]
  have hsnd : (AddQuote s none t a).2 = s' := by rw [heq]
  rw [addQuote_none_fst] at hfst
  injection hfst with hk
  subst hk
  have hlist' : s'.quotesList = s.quotesList ++ [⟨s.nextID, t, a⟩] := by
    rw [← hsnd, addQuote_none_snd]
  have hnext' : s'.nextID = s.nextID + 1 := by
    rw [← hsnd, addQuote_none_snd]
  have hq0count : s'.quotesList.count ⟨s.nextID, t, a⟩ = 1 := by
    rw [hlist', List.count_append]
    have hz : s.quotesList.count ⟨s.nextID, t, a⟩ = 0 := by
      apply List.count_eq_zero.mpr
      intro hmem
      have hlt := hInv.2.1 _ hmem
      dsimp only at hlt
      omega
    rw [hz]
    simp [List.count_cons]
  have hq0lt : (⟨s.nextID, t, a⟩ : Quote).id < s'.nextID := by
    rw [hnext']
    dsimp only
    omega
  have hInv' : StoreInv s' := by
    rw [← hsnd]
    exact storeInv_add s t a hInv
  intro ps
  obtain ⟨hcp, hlt'⟩ := addMany_count ps s' ⟨s.nextID, t, a⟩ hq0lt
  have hinvM := addMany_inv ps s' hInv'
  have hcount : (addMany s' ps).quotesList.count ⟨s.nextID, t, a⟩ = 1 :=
    hcp.trans hq0count
  have hmem : (⟨s.nextID, t, a⟩ : Quote) ∈ (addMany s' ps).quotesList := by
    by_contra hnot
    rw [List.count_eq_zero.mpr hnot] at hcount
    exact absurd hcount (by omega)
  obtain ⟨v, hv⟩ := lookup_some_of_listed (addMany s' ps) _ hinvM hmem
  refine ⟨⟨(addMany s' ps).quotesList, rfl, hcount⟩, ?_, ?_⟩
  · rw [deleteQuote_none_of_lookup_some _ _ v hv]
  · refine ⟨_, rfl, ?_⟩
    rw [deleteQuote_none_of_lookup_some _ _ v hv]
    dsimp only
    apply List.count_eq_zero.mpr
    intro hmem2
    have hf := List.mem_filter.mp hmem2
    rw [bne_iff_ne] at hf
    exact hf.2 rfl

theorem add_listed_once_until_delete_witness :
    (DeleteQuote (addMany (AddQuote New none "be" "lee").2 []) none 1).1
      = Except.ok () := by
  have h := add_listed_once_until_delete New "be" "lee" (by decide) 1
    (AddQuote New none "be" "lee").2 rfl []
  exact h.2.1

/-- C3: a sequence of successful `AddQuote` calls on a freshly created
store hands out exactly the ids 1, 2, …, n in order, which are
strictly increasing and pairwise distinct. -/
theorem add_ids_strictly_increasing (ps : List (String × String)) :
    (addAll New ps).1
      = (List.range ps.length).map (fun n : Nat => 1 + (n : Int)) ∧
    (addAll New ps).1.Pairwise (· < ·) ∧ (addAll New ps).1.Nodup := by
  have heq := addAll_ids ps New
  rw [show New.nextID = 1 from rfl] at heq
  refine ⟨heq, ?_, ?_⟩
  · rw [heq, List.pairwise_map]
    exact (List.pairwise_lt_range ps.length).imp (fun h => by omega)
  · rw [heq]
    exact (List.nodup_range ps.length).map (fun x y hxy => by omega)

/-- C4: with a live context, `DeleteQuote(k)` fails with
`ErrQuoteNotFound` exactly when no stored quote has id `k`; on that
failure the state is unchanged; when a stored quote does have id `k` it
succeeds, and repeating the delete immediately fails with
`ErrQuoteNotFound`. -/
theorem delete_notFound_iff_absent (s : Storage) (k : Int)
    (hInv : StoreInv s) :
    ((DeleteQuote s none k).1 = Except.error Err.quoteNotFound ↔
      ∀ q ∈ s.quotesList, q.id ≠ k) ∧
    ((DeleteQuote s none k).1 = Except.error Err.quoteNotFound →
      (DeleteQuote s none k).2 = s) ∧
    ((∃ q ∈ s.quotesList, q.id = k) →
      (DeleteQuote s none k).1 = Except.ok ()) ∧
    ((DeleteQuote s none k).1 = Except.ok () →
      (DeleteQuote (DeleteQuote s none k).2 none k).1
        = Except.error Err.quoteNotFound) := by
  cases hm : mapLookup s.quotes k with
  | none =>
    rw [deleteQuote_none_of_lookup_none s k hm]
    refine ⟨⟨fun _ => (lookup_none_iff_not_listed s k hInv).mp hm, fun _ => rfl⟩,
      fun _ => rfl, ?_, ?_⟩
    · rintro ⟨q, hq, hid⟩
      exact absurd hid ((lookup_none_iff_not_listed s k hInv).mp hm q hq)
    · intro habs
      exact absurd habs (by simp)
  | some v =>
    rw [deleteQuote_none_of_lookup_some s k v hm]
    refine ⟨⟨fun habs => absurd habs (by simp), ?_⟩, ?_, fun _ => rfl, ?_⟩
    · intro hall
      have := (lookup_none_iff_not_listed s k hInv).mpr hall
      rw [hm] at this
      cases this
    · intro habs
      exact absurd habs (by simp)
    · intro _
      have hnone : mapLookup (mapDelete s.quotes k) k = none :=
        mapDelete_lookup_self s.quotes k
      rw [deleteQuote_none_of_lookup_none _ k hnone]

theorem delete_notFound_iff_absent_witness :
    (DeleteQuote (AddQuote New none "t" "a").2 none 2).1
      = Except.error Err.quoteNotFound := by
  have h := delete_notFound_iff_absent (AddQuote New none "t" "a").2 2
    (by decide)
  exact h.1.mpr (by decide)

/-- C5: with a live context, `GetQuotesByAuthor(a)` always succeeds,
leaves the state unchanged, and returns exactly the stored quotes whose
author equals `a` by exact string equality, in insertion order; no
match yields `some []`, an empty but non-absent slice, not an error. -/
theorem byAuthor_exact_filter (s : Storage) (f : String) :
    GetQuotesByAuthor s none f =
      (Except.ok (some (s.quotesList.filter (fun q => q.author == f))), s) :=
  Prod.ext (getQuotesByAuthor_none_fst s f) (getQuotesByAuthor_snd s none f)

/-- C6: with a live context, `GetRandomQuote` fails with
`ErrQuoteNotFound` exactly when the store is empty; for a drawn index
`r < N` (the contract of `rand.Intn(N)`) it returns the stored quote at
position `r`, which is one of the stored quotes; and each stored quote
is returned for exactly one index value, so the selection is unbiased
given a uniform index. -/
theorem random_notFound_iff_empty (s : Storage) (r : Nat)
    (hInv : StoreInv s) :
    ((GetRandomQuote s none r).1 = Except.error Err.quoteNotFound ↔
      s.quotesList = []) ∧
    (∀ h : r < s.quotesList.length,
      (GetRandomQuote s none r).1 = Except.ok (s.quotesList.get ⟨r, h⟩)) ∧
    (∀ h : r < s.quotesList.length, s.quotesList.get ⟨r, h⟩ ∈ s.quotesList) ∧
    (∀ q ∈ s.quotesList,
      ∃! i : Fin s.quotesList.length, s.quotesList.get i = q) := by
  refine ⟨?_, ?_, ?_, ?_⟩
  · by_cases hlen : s.quotesList.length = 0
    · rw [getRandomQuote_none_empty s r hlen]
      simp [List.length_eq_zero.mp hlen]
    · rw [getRandomQuote_none_nonempty s r hlen]
      constructor
      · intro habs
        exact absurd habs (by simp)
      · intro hnil
        exact absurd (by simp [hnil] : s.quotesList.length = 0) hlen
  · intro hlt
    have hlen : ¬ s.quotesList.length = 0 := by omega
    rw [getRandomQuote_none_nonempty s r hlen]
    congr 1
    rw [List.getD_eq_getElem s.quotesList default hlt, List.get_eq_getElem]
  · intro hlt
    exact List.get_mem s.quotesList r hlt
  · intro q hq
    have hnd : s.quotesList.Nodup := List.Nodup.of_map Quote.id hInv.1
    obtain ⟨n, hn⟩ := List.get_of_mem hq
    refine ⟨n, hn, ?_⟩
    intro j hj
    exact List.nodup_iff_injective_get.mp hnd (hj.trans hn.symm)

theorem random_notFound_iff_empty_witness :
    (GetRandomQuote New none 0).1 = Except.error Err.quoteNotFound := by
  have h := random_notFound_iff_empty New 0 (by decide)
  exact h.1.mpr rfl

/-- C7 (counterexample): `Close` takes no cancellation signal at all
and clears a non-empty store unconditionally, so it performs mutation
even when the caller's context is already cancelled; the claim that
every operation checks the signal before mutating fails on `Close`. -/
theorem close_mutates_despite_cancellation :
    (Close (AddQuote New none "Be water, my friend." "Bruce Lee").2).2
      ≠ (AddQuote New none "Be water, my friend." "Bruce Lee").2 := by
  decide

/-- C7 (amended): every context-accepting operation (AddQuote,
GetAllQuotes, GetRandomQuote, GetQuotesByAuthor, DeleteQuote) checks
the caller's cancellation signal before any read or mutation: on an
already-cancelled context it performs no work, leaves the state
untouched, and reports the context's error, which is distinct from
`ErrQuoteNotFound`; `Close` takes no signal and unconditionally resets
the store. -/
theorem ctx_checked_before_work (s : Storage) (e : CtxErr) (t a f : String)
    (k : Int) (r : Nat) :
    AddQuote s (some e) t a = (Except.error (Err.ctx e), s) ∧
    GetAllQuotes s (some e) = (Except.error (Err.ctx e), s) ∧
    GetRandomQuote s (some e) r = (Except.error (Err.ctx e), s) ∧
    GetQuotesByAuthor s (some e) f = (Except.error (Err.ctx e), s) ∧
    DeleteQuote s (some e) k = (Except.error (Err.ctx e), s) ∧
    Err.ctx e ≠ Err.quoteNotFound ∧
    (Close s).2 = { quotes := [], quotesList := [], nextID := 1 } := by
  refine ⟨rfl, rfl, rfl, rfl, rfl, ?_, rfl⟩
  simp

/-- C8: with a live context, `GetAllQuotes` returns the stored quotes
in insertion order as a non-absent slice and leaves the state
unchanged; the returned value is the slice at call time, so a later
call on the mutated store returns the mutated slice while a previously
returned snapshot keeps its value; an empty store yields `some []`. -/
theorem getAll_snapshot (s : Storage) (ops : List Op) :
    GetAllQuotes s none = (Except.ok (some s.quotesList), s) ∧
    (GetAllQuotes (runOps s ops) none).1
      = Except.ok (some (runOps s ops).quotesList) ∧
    (GetAllQuotes { quotes := [], quotesList := [], nextID := s.nextID }
        none).1 = Except.ok (some []) :=
  ⟨rfl, rfl, rfl⟩

/-- C9 (counterexample): `Close` resets the id counter to 1, so the
sequence Add, Close, Add hands out id 1 twice — with Reset/Close
included, ids are not unique over a store's lifetime. -/
theorem id_reused_after_close :
    ¬ (assignedIds New [Op.add "a" "b", Op.close, Op.add "c" "d"]).Nodup := by
  decide

/-- C9 (amended): over every sequence of operations that does not
include `Close`, the ids handed out by the Add calls are strictly
increasing (hence never assigned twice) and the next-id counter stays
strictly greater than every id assigned during the sequence; `Close`
resets the counter to its initial value, after which ids can be
reused. -/
theorem ids_fresh_without_close (s : Storage) (ops : List Op)
    (h : Op.close ∉ ops) :
    (assignedIds s ops).Pairwise (· < ·) ∧ (assignedIds s ops).Nodup ∧
    ∀ i ∈ assignedIds s ops, i < (runOps s ops).nextID := by
  have hp := assignedIds_pairwise ops s h
  exact ⟨hp, hp.imp (fun hlt => ne_of_lt hlt),
    fun i hi => (assignedIds_bounds ops s h i hi).2⟩

theorem ids_fresh_without_close_witness :
    (assignedIds New [Op.add "x" "y", Op.delete 1, Op.add "z" "w"]).Nodup :=
  (ids_fresh_without_close New
    [Op.add "x" "y", Op.delete 1, Op.add "z" "w"] (by decide)).2.1

/-- C10: a successful `DeleteQuote(k)` removes exactly the quote with
id `k`: the surviving slice is the original filtered on `id ≠ k` (so
every other quote keeps id, text, author and relative order — a
sublist of the original), the counter is unchanged, every other map
binding is unchanged, and the binding for `k` is gone. -/
theorem delete_frame (s : Storage) (k : Int)
    (h : (DeleteQuote s none k).1 = Except.ok ()) :
    (DeleteQuote s none k).2.quotesList
        = s.quotesList.filter (fun q => q.id != k) ∧
    (DeleteQuote s none k).2.nextID = s.nextID ∧
    List.Sublist (DeleteQuote s none k).2.quotesList s.quotesList ∧
    (∀ q ∈ s.quotesList, q.id ≠ k → q ∈ (DeleteQuote s none k).2.quotesList) ∧
    (∀ j, j ≠ k →
      mapLookup (DeleteQuote s none k).2.quotes j = mapLookup s.quotes j) ∧
    mapLookup (DeleteQuote s none k).2.quotes k = none := by
  cases hm : mapLookup s.quotes k with
  | none =>
    rw [deleteQuote_none_of_lookup_none s k hm] at h
    exact absurd h (by simp)
  | some v =>
    rw [deleteQuote_none_of_lookup_some s k v hm]
    dsimp only
    refine ⟨rfl, rfl, List.filter_sublist _, ?_, ?_,
      mapDelete_lookup_self _ _⟩
    · intro q hq hne
      exact List.mem_filter.mpr ⟨hq, by simpa [bne_iff_ne] using hne⟩
    · intro j hj
      exact mapDelete_lookup_other s.quotes k j hj

theorem delete_frame_witness :
    (DeleteQuote (AddQuote New none "t" "a").2 none 1).2.nextID
      = (AddQuote New none "t" "a").2.nextID :=
  (delete_frame (AddQuote New none "t" "a").2 1 (by decide)).2.1
